import Mathlib

/-!
Shallow embedding of the wordle solver core (src/src/wordle/mod.rs).

Rust `String` words are modelled as `List Char`.  Functions that can panic
in Rust (`unwrap` on `None`, out-of-bounds indexing) are modelled as
`Option`-valued functions returning `none` at the panic point.  The
selector's process-local random source is modelled as an explicit stream
`rand : Nat → Nat` of raw draws; `SliceRandom::choose` becomes
`dictChoose`, which reduces a raw draw modulo the dictionary length (and
returns `none` on an empty slice, exactly as `choose` does).  The
selector's unbounded `loop` is modelled with explicit fuel, and the
returned value is instrumented with the number of draws made
(`num_choices` at the point of return) so that resource claims about the
loop can be stated.
-/

namespace WordleSolver

/-- The three-variant per-position classification (enum `Correctness`). -/
inductive Correctness where
  | Correct
  | IncorrectPlacement
  | Incorrect
deriving DecidableEq, Repr

/-- A word: Rust `String`, modelled as its character list. -/
abbrev Word := List Char

/-- Rust `struct Guess { guess: String, result: Vec<Correctness> }`. -/
structure Guess where
  guess : Word
  result : List Correctness
deriving DecidableEq, Repr

/-- Rust `struct Wordle` (session state). Pinned positions (`u32` in Rust)
are modelled as `Nat`. -/
structure Wordle where
  guesses : List Guess
  dictionary : List Word
  incorrect_letters : List Char
  correct_letters : List (Char × Nat)
  misplaced_letters : List Char
deriving DecidableEq, Repr

/-- Rust `Wordle::new`. -/
def Wordle.new (dictionary : List Word) : Wordle :=
  { guesses := []
    dictionary := dictionary
    incorrect_letters := []
    correct_letters := []
    misplaced_letters := [] }

/-- The per-position classification step of `check_guess`: the branch
`if guess_chars[i] == word_chars[i] ... else if word.contains(...) ...`. -/
def scoreChar (word : Word) (g w : Char) : Correctness :=
  if g = w then Correctness.Correct
  else if word.contains g then Correctness.IncorrectPlacement
  else Correctness.Incorrect

/-- The loop `for i in 0..guess_chars.len()` of `check_guess`, walking the
guess and target character lists in lockstep.  Indexing `word_chars[i]`
past the end of the target panics in Rust, hence `none`. -/
def check_guess_go (word : Word) : List Char → List Char → Option (List Correctness)
  | [], _ => some []
  | _ :: _, [] => none
  | g :: gs, w :: ws =>
    (check_guess_go word gs ws).map (fun rest => scoreChar word g w :: rest)

/-- Rust `check_guess(guess, word)` (the scorer). -/
def check_guess (guess word : Word) : Option (List Correctness) :=
  check_guess_go word guess word

theorem check_guess_go_eq_none (word : Word) :
    ∀ gs ws : List Char, check_guess_go word gs ws = none ↔ ws.length < gs.length := by
  intro gs
  induction gs with
  | nil => intro ws; simp [check_guess_go]
  | cons g gs ih =>
    intro ws
    cases ws with
    | nil => simp [check_guess_go]
    | cons w ws => simp [check_guess_go, ih ws, Nat.succ_lt_succ_iff]

theorem check_guess_go_eq_some (word : Word) :
    ∀ gs ws l, check_guess_go word gs ws = some l →
      l.length = gs.length ∧
      ∀ i g w, gs.get? i = some g → ws.get? i = some w →
        l.get? i = some (scoreChar word g w) := by
  intro gs
  induction gs with
  | nil =>
    intro ws l h
    simp [check_guess_go] at h
    subst h
    simp
  | cons g gs ih =>
    intro ws l h
    cases ws with
    | nil => simp [check_guess_go] at h
    | cons w ws =>
      simp only [check_guess_go, Option.map_eq_some'] at h
      obtain ⟨rest, hrest, hl⟩ := h
      obtain ⟨hlen, hidx⟩ := ih ws rest hrest
      subst hl
      refine ⟨by simp [hlen], ?_⟩
      intro i gc wc hg hw
      cases i with
      | zero =>
        simp at hg hw
        subst hg; subst hw
        rfl
      | succ i =>
        simp only [List.get?_cons_succ] at hg hw ⊢
        exact hidx i gc wc hg hw

/-- The `for (c, i) in correct_letters` loop of `filter_dictionary`:
`word.chars().nth(i).unwrap()` panics (`none`) when the pinned position is
past the end of the word; otherwise a mismatching character returns
`false` immediately. -/
def checkPinned (word : Word) : List (Char × Nat) → Option Bool
  | [] => some true
  | (c, i) :: rest =>
    match word.get? i with
    | none => none
    | some wc => if wc ≠ c then some false else checkPinned word rest

/-- Rust `filter_dictionary(word, incorrect_letters, misplaced_letters,
correct_letters)`: reject on any excluded letter present, then on any
required letter missing, then walk the pinned pairs. -/
def filter_dictionary (word : Word) (incorrect_letters misplaced_letters : List Char)
    (correct_letters : List (Char × Nat)) : Option Bool :=
  if incorrect_letters.any (fun c => word.contains c) then some false
  else if misplaced_letters.any (fun c => ! word.contains c) then some false
  else checkPinned word correct_letters

/-- The loop of `has_double_letter`, with the `HashSet` of seen
characters modelled as the list of characters inserted so far. -/
def has_double_letter_go (seen : List Char) : List Char → Bool
  | [] => false
  | c :: cs => if seen.contains c then true else has_double_letter_go (c :: seen) cs

/-- Rust `has_double_letter(word)`. -/
def has_double_letter (word : Word) : Bool :=
  has_double_letter_go [] word

/-- Rust `dict.choose(&mut rng)`: `none` on an empty slice, otherwise a
uniformly indexed element, the raw draw reduced modulo the length. -/
def dictChoose (dict : List Word) (r : Nat) : Option Word :=
  dict.get? (r % dict.length)

/-- The `loop` of `choose_next_guess`, with explicit fuel.  The second
component of the result is the value of `num_choices` at the `return`,
i.e. the number of draws the loop made. -/
def choose_aux (dict : List Word) (rand : Nat → Nat) : Nat → Nat → Option (Word × Nat)
  | 0, _ => none
  | fuel + 1, num_choices =>
    match dictChoose dict (rand num_choices) with
    | none => none
    | some choice =>
      if dict.length < 10 ∨ has_double_letter choice = false ∨ 4 < num_choices + 1 then
        some (choice, num_choices + 1)
      else
        choose_aux dict rand fuel (num_choices + 1)

/-- Rust `choose_next_guess(dict)` (the selector), starting with
`num_choices = 0`. -/
def choose_next_guess (dict : List Word) (rand : Nat → Nat) (fuel : Nat) :
    Option (Word × Nat) :=
  choose_aux dict rand fuel 0

/-- One iteration of the letter-classification loop in
`Wordle::add_guess`: push the guessed character onto the list its
`Correctness` selects. -/
def applyLetter (st : Wordle) (c : Char) (i : Nat) (r : Correctness) : Wordle :=
  match r with
  | Correctness.Correct => { st with correct_letters := st.correct_letters ++ [(c, i)] }
  | Correctness.IncorrectPlacement =>
      { st with misplaced_letters := st.misplaced_letters ++ [c] }
  | Correctness.Incorrect =>
      { st with incorrect_letters := st.incorrect_letters ++ [c] }

/-- The `for (i, c) in g.guess.chars().enumerate()` loop of
`Wordle::add_guess`; `g.result[i]` panics (`none`) when the result vector
is shorter than the guess. -/
def recordLetters (result : List Correctness) : Wordle → List Char → Nat → Option Wordle
  | st, [], _ => some st
  | st, c :: cs, i =>
    match result.get? i with
    | none => none
    | some r => recordLetters result (applyLetter st c i r) cs (i + 1)

/-- The retain predicate of `Wordle::add_guess`:
`filter_dictionary(...) && word != &g.guess`. -/
def keepWord (st : Wordle) (gword : Word) (word : Word) : Option Bool :=
  match filter_dictionary word st.incorrect_letters st.misplaced_letters st.correct_letters with
  | none => none
  | some b => some (b && decide (word ≠ gword))

/-- Rust `Vec::retain` over the dictionary, propagating a panic of the
predicate. -/
def retainAux (pred : Word → Option Bool) : List Word → Option (List Word)
  | [] => some []
  | w :: ws =>
    match pred w with
    | none => none
    | some true => (retainAux pred ws).map (fun l => w :: l)
    | some false => retainAux pred ws

/-- Rust `Wordle::add_guess(guess)`: push the guess, classify its letters,
then retain the consistent, not-just-guessed dictionary words. -/
def add_guess (st : Wordle) (g : Guess) : Option Wordle :=
  match recordLetters g.result { st with guesses := st.guesses ++ [g] } g.guess 0 with
  | none => none
  | some st2 =>
    match retainAux (keepWord st2 g.guess) st2.dictionary with
    | none => none
    | some d => some { st2 with dictionary := d }

/-- The `matches!(r, Correctness::Correct)` test. -/
def isCorrectB : Correctness → Bool
  | Correctness.Correct => true
  | _ => false

/-- Rust `Wordle::is_solved`: `guesses.last().unwrap()` panics (`none`) on an
empty guess history; otherwise every position must be `Correct`. -/
def is_solved (st : Wordle) : Option Bool :=
  match st.guesses.getLast? with
  | none => none
  | some g => some (g.result.all isCorrectB)

/-- A sequence of `add_guess` calls on a session. -/
def run_guesses : Wordle → List Guess → Option Wordle
  | st, [] => some st
  | st, g :: gs =>
    match add_guess st g with
    | none => none
    | some st2 => run_guesses st2 gs

/-- Every recorded guess carries the scorer's verdict against the
session's target, as in the driver loop of `main.rs`. -/
def honest_all (target : Word) (gs : List Guess) : Bool :=
  gs.all (fun g => decide (check_guess g.guess target = some g.result))

/-- No character of `a` occurs in `b`. -/
def listDisjoint (a b : List Char) : Bool :=
  a.all (fun c => ! b.contains c)

theorem checkPinned_eq_some_true (word : Word) :
    ∀ cor : List (Char × Nat), checkPinned word cor = some true ↔
      ∀ p ∈ cor, word.get? p.2 = some p.1 := by
  intro cor
  induction cor with
  | nil => simp [checkPinned]
  | cons p rest ih =>
    obtain ⟨c, i⟩ := p
    simp only [checkPinned]
    cases hw : word.get? i with
    | none =>
      show (none : Option Bool) = some true ↔ _
      constructor
      · intro h; exact Option.noConfusion h
      · intro h
        have h0 : List.get? word i = some c := h (c, i) (by simp)
        rw [hw] at h0
        exact Option.noConfusion h0
    | some wc =>
      show (if wc ≠ c then some false else checkPinned word rest) = some true ↔ _
      by_cases hc : wc = c
      · subst hc
        rw [if_neg (fun hne : wc ≠ wc => hne rfl), ih]
        constructor
        · intro h q hq
          rcases List.mem_cons.mp hq with hq | hq
          · rw [hq]; exact hw
          · exact h q hq
        · intro h q hq
          exact h q (List.mem_cons_of_mem _ hq)
      · rw [if_pos hc]
        constructor
        · intro h
          exact Bool.noConfusion (Option.some.inj h)
        · intro h
          have h0 : List.get? word i = some c := h (c, i) (by simp)
          rw [hw] at h0
          exact absurd (Option.some.inj h0) hc

/-- C1: for equal-length guess and target, `check_guess` returns exactly
one `Correctness` per position, classified by the per-position rule
(`Correct` on a positional match, else `IncorrectPlacement` when the
target contains the letter anywhere, else `Incorrect`), and in particular
scoring "skirt" against "shirt" yields
`[Correct, Incorrect, Correct, Correct, Correct]`.  (The spec's names
`MisplacedLetter`/`Absent` are the source's
`IncorrectPlacement`/`Incorrect`.) -/
theorem check_guess_spec (guess target : Word) (h : guess.length = target.length) :
    (∃ l, check_guess guess target = some l ∧ l.length = guess.length ∧
      ∀ i g t, guess.get? i = some g → target.get? i = some t →
        l.get? i = some (if g = t then Correctness.Correct
          else if target.contains g = true then Correctness.IncorrectPlacement
          else Correctness.Incorrect)) ∧
    check_guess ['s','k','i','r','t'] ['s','h','i','r','t'] =
      some [Correctness.Correct, Correctness.Incorrect, Correctness.Correct,
        Correctness.Correct, Correctness.Correct] := by
  constructor
  · have hne : check_guess guess target ≠ none := by
      rw [check_guess, Ne, check_guess_go_eq_none]
      omega
    obtain ⟨l, hl⟩ := Option.ne_none_iff_exists'.mp hne
    obtain ⟨hlen, hidx⟩ := check_guess_go_eq_some target guess target l hl
    exact ⟨l, hl, hlen, fun i g t hg ht => hidx i g t hg ht⟩
  · decide

theorem check_guess_spec_witness :
    List.length ['s','k','i','r','t'] = List.length ['s','h','i','r','t'] ∧
    check_guess ['s','k','i','r','t'] ['s','h','i','r','t'] =
      some [Correctness.Correct, Correctness.Incorrect, Correctness.Correct,
        Correctness.Correct, Correctness.Correct] :=
  ⟨by decide,
    (check_guess_spec ['s','k','i','r','t'] ['s','h','i','r','t'] (by decide)).2⟩

/-- C2: `filter_dictionary` retains a word (returns `true`) exactly when
the word contains no excluded (incorrect) letter, contains every required
(misplaced) letter — membership only — and matches every pinned
(correct) pair character-at-position. -/
theorem filter_dictionary_spec (word : Word) (inc mis : List Char)
    (cor : List (Char × Nat)) :
    filter_dictionary word inc mis cor = some true ↔
      ((∀ c ∈ inc, c ∉ word) ∧ (∀ c ∈ mis, c ∈ word) ∧
        ∀ p ∈ cor, word.get? p.2 = some p.1) := by
  unfold filter_dictionary
  by_cases h1 : inc.any (fun c => word.contains c) = true
  · rw [if_pos h1]
    simp only [List.any_eq_true] at h1
    obtain ⟨c, hc, hcont⟩ := h1
    have hmem : c ∈ word := by simpa using hcont
    constructor
    · intro h; simp at h
    · intro h; exact absurd hmem (h.1 c hc)
  · rw [if_neg h1]
    have hA : ∀ c ∈ inc, c ∉ word := by
      intro c hc hmem
      exact h1 (List.any_eq_true.mpr ⟨c, hc, by simpa using hmem⟩)
    by_cases h2 : mis.any (fun c => ! word.contains c) = true
    · rw [if_pos h2]
      simp only [List.any_eq_true] at h2
      obtain ⟨c, hc, hcont⟩ := h2
      have hmem : c ∉ word := by simpa using hcont
      constructor
      · intro h; simp at h
      · intro h; exact absurd (h.2.1 c hc) hmem
    · rw [if_neg h2]
      have hB : ∀ c ∈ mis, c ∈ word := by
        intro c hc
        by_contra hmem
        exact h2 (List.any_eq_true.mpr ⟨c, hc, by simpa using hmem⟩)
      rw [checkPinned_eq_some_true]
      exact ⟨fun h => ⟨hA, hB, h⟩, fun h => h.2.2⟩

/-- C3: the code of `choose_next_guess` on an empty dictionary does not
produce a value at all — `dict.choose(&mut rng)` yields `None` and the
`unwrap` panics (modelled `none`), for every random stream and any fuel;
no `EmptyCandidateSet` error value exists in the code. -/
theorem choose_next_guess_empty_panics (rand : Nat → Nat) (fuel : Nat) :
    choose_next_guess [] rand fuel = none := by
  cases fuel <;> rfl

/-- C7: a pinned pair whose position is past the end of the word makes
`filter_dictionary` panic (`word.chars().nth(i).unwrap()` on `None`,
modelled `none`) rather than return an `IndexOutOfRange` error value:
here the word "ab" against the pinned pair `('a', 5)`. -/
theorem filter_dictionary_oob_panics :
    filter_dictionary ['a', 'b'] [] [] [('a', 5)] = none := by decide

/-- C9: `check_guess` does no length validation: whenever the guess is no
longer than the target it returns a result of exactly the guess's length,
and whenever the guess is strictly longer the positional loop indexes
past the target (panic, modelled `none`), so the scorer is total exactly
on `len(guess) <= len(target)`. -/
theorem check_guess_length_partiality (guess target : Word) :
    (target.length < guess.length → check_guess guess target = none) ∧
    (guess.length ≤ target.length →
      ∃ l, check_guess guess target = some l ∧ l.length = guess.length) := by
  constructor
  · intro h
    rw [check_guess, check_guess_go_eq_none]
    exact h
  · intro h
    have hne : check_guess guess target ≠ none := by
      rw [check_guess, Ne, check_guess_go_eq_none]
      omega
    obtain ⟨l, hl⟩ := Option.ne_none_iff_exists'.mp hne
    exact ⟨l, hl, (check_guess_go_eq_some target guess target l hl).1⟩

theorem check_guess_length_partiality_witness :
    (List.length ['a', 'b'] < List.length ['a', 'b', 'c'] ∧
      check_guess ['a', 'b', 'c'] ['a', 'b'] = none) ∧
    (List.length ['a', 'b'] ≤ List.length ['a', 'b', 'c'] ∧
      ∃ l, check_guess ['a', 'b'] ['a', 'b', 'c'] = some l ∧
        l.length = List.length ['a', 'b']) :=
  ⟨⟨by decide, (check_guess_length_partiality ['a', 'b', 'c'] ['a', 'b']).1 (by decide)⟩,
    ⟨by decide, (check_guess_length_partiality ['a', 'b'] ['a', 'b', 'c']).2 (by decide)⟩⟩

theorem retainAux_sublist (pred : Word → Option Bool) :
    ∀ l l2, retainAux pred l = some l2 → l2.Sublist l := by
  intro l
  induction l with
  | nil =>
    intro l2 h
    simp [retainAux] at h
    rw [← h]
  | cons w ws ih =>
    intro l2 h
    simp only [retainAux] at h
    cases hp : pred w with
    | none => rw [hp] at h; exact Option.noConfusion h
    | some b =>
      rw [hp] at h
      cases b with
      | true =>
        simp only [Option.map_eq_some'] at h
        obtain ⟨rest, hrest, hl⟩ := h
        rw [← hl]
        exact List.Sublist.cons₂ w (ih rest hrest)
      | false =>
        exact List.Sublist.cons w (ih l2 h)

theorem retainAux_mem_pred (pred : Word → Option Bool) :
    ∀ l l2, retainAux pred l = some l2 → ∀ w ∈ l2, pred w = some true := by
  intro l
  induction l with
  | nil =>
    intro l2 h w hw
    simp [retainAux] at h
    subst h
    exact absurd hw (List.not_mem_nil w)
  | cons v vs ih =>
    intro l2 h w hw
    simp only [retainAux] at h
    cases hp : pred v with
    | none => rw [hp] at h; exact Option.noConfusion h
    | some b =>
      rw [hp] at h
      cases b with
      | true =>
        simp only [Option.map_eq_some'] at h
        obtain ⟨rest, hrest, hl⟩ := h
        rw [← hl] at hw
        rcases List.mem_cons.mp hw with hw | hw
        · rw [hw]; exact hp
        · exact ih rest hrest w hw
      | false =>
        exact ih l2 h w hw

theorem applyLetter_dictionary (st : Wordle) (c : Char) (i : Nat) (r : Correctness) :
    (applyLetter st c i r).dictionary = st.dictionary := by
  cases r <;> rfl

theorem recordLetters_dictionary (result : List Correctness) :
    ∀ cs st i st2, recordLetters result st cs i = some st2 →
      st2.dictionary = st.dictionary := by
  intro cs
  induction cs with
  | nil =>
    intro st i st2 h
    simp [recordLetters] at h
    rw [← h]
  | cons c cs ih =>
    intro st i st2 h
    simp only [recordLetters] at h
    cases hr : result.get? i with
    | none => rw [hr] at h; exact Option.noConfusion h
    | some r =>
      rw [hr] at h
      rw [ih (applyLetter st c i r) (i + 1) st2 h, applyLetter_dictionary]

theorem add_guess_parts (st : Wordle) (g : Guess) (st2 : Wordle)
    (h : add_guess st g = some st2) :
    ∃ stR d, recordLetters g.result { st with guesses := st.guesses ++ [g] } g.guess 0 = some stR ∧
      retainAux (keepWord stR g.guess) stR.dictionary = some d ∧
      st2 = { stR with dictionary := d } := by
  unfold add_guess at h
  split at h
  · exact Option.noConfusion h
  · split at h
    · exact Option.noConfusion h
    · rename_i x1 stR hrec x2 d hret
      exact ⟨stR, d, hrec, hret, (Option.some.inj h).symm⟩

/-- C5: a successful `add_guess` never grows the candidate dictionary:
the new dictionary is no longer than the old one and every word in it was
already there (the retained list is a sublist of the old dictionary). -/
theorem add_guess_shrinks_dictionary (st : Wordle) (g : Guess) (st2 : Wordle)
    (h : add_guess st g = some st2) :
    st2.dictionary.length ≤ st.dictionary.length ∧
      ∀ w ∈ st2.dictionary, w ∈ st.dictionary := by
  obtain ⟨stR, d, hrec, hret, hst2⟩ := add_guess_parts st g st2 h
  have hdict : stR.dictionary = st.dictionary := by
    have hd := recordLetters_dictionary g.result g.guess
      { st with guesses := st.guesses ++ [g] } 0 stR hrec
    simpa using hd
  have hsub : d.Sublist st.dictionary := by
    rw [← hdict]
    exact retainAux_sublist _ _ _ hret
  rw [hst2]
  exact ⟨hsub.length_le, fun w hw => hsub.subset hw⟩

theorem add_guess_shrinks_dictionary_witness :
    add_guess (Wordle.new [['a'], ['b']]) ⟨['a'], [Correctness.Correct]⟩ =
      some ⟨[⟨['a'], [Correctness.Correct]⟩], [], [], [('a', 0)], []⟩ ∧
    (some ⟨[⟨['a'], [Correctness.Correct]⟩], [], [], [('a', 0)], []⟩ : Option Wordle).elim 0
        (fun st2 => st2.dictionary.length) ≤
      (Wordle.new [['a'], ['b']]).dictionary.length :=
  ⟨by decide,
    (add_guess_shrinks_dictionary (Wordle.new [['a'], ['b']]) ⟨['a'], [Correctness.Correct]⟩
      ⟨[⟨['a'], [Correctness.Correct]⟩], [], [], [('a', 0)], []⟩ (by decide)).1⟩

/-- C8: after a successful `add_guess`, the just-guessed word is not in
the candidate dictionary — the retain predicate conjoins
`word != &g.guess`, so the guessed word is dropped even when it passes
`filter_dictionary`. -/
theorem add_guess_removes_guessed_word (st : Wordle) (g : Guess) (st2 : Wordle)
    (h : add_guess st g = some st2) :
    g.guess ∉ st2.dictionary := by
  obtain ⟨stR, d, hrec, hret, hst2⟩ := add_guess_parts st g st2 h
  rw [hst2]
  intro hmem
  have hkeep := retainAux_mem_pred _ _ _ hret g.guess hmem
  unfold keepWord at hkeep
  cases hf : filter_dictionary g.guess stR.incorrect_letters stR.misplaced_letters
      stR.correct_letters with
  | none => rw [hf] at hkeep; exact Option.noConfusion hkeep
  | some b =>
    rw [hf] at hkeep
    have hb := Option.some.inj hkeep
    rw [Bool.and_eq_true, decide_eq_true_eq] at hb
    exact hb.2 rfl

theorem add_guess_removes_guessed_word_witness :
    add_guess (Wordle.new [['a']]) ⟨['a'], [Correctness.Correct]⟩ =
      some ⟨[⟨['a'], [Correctness.Correct]⟩], [], [], [('a', 0)], []⟩ ∧
    ['a'] ∉ (⟨[⟨['a'], [Correctness.Correct]⟩], [], [], [('a', 0)], []⟩ : Wordle).dictionary :=
  ⟨by decide,
    add_guess_removes_guessed_word (Wordle.new [['a']]) ⟨['a'], [Correctness.Correct]⟩
      ⟨[⟨['a'], [Correctness.Correct]⟩], [], [], [('a', 0)], []⟩ (by decide)⟩

/-- C10: `is_solved` unconditionally unwraps the last recorded guess:
with at least one guess it returns `true` exactly when every position of
the most recent result is `Correct`; on an empty guess history the
`unwrap` fails (modelled `none`), so a recorded guess is an unstated
precondition. -/
theorem is_solved_spec (st : Wordle) :
    (st.guesses = [] → is_solved st = none) ∧
    ∀ g, st.guesses.getLast? = some g →
      is_solved st = some (g.result.all isCorrectB) ∧
      (g.result.all isCorrectB = true ↔ ∀ r ∈ g.result, r = Correctness.Correct) := by
  constructor
  · intro h
    unfold is_solved
    rw [h]
    rfl
  · intro g hg
    constructor
    · unfold is_solved
      rw [hg]
    · rw [List.all_eq_true]
      constructor
      · intro h r hr
        have h2 := h r hr
        cases r
        · rfl
        · exact Bool.noConfusion h2
        · exact Bool.noConfusion h2
      · intro h r hr
        rw [h r hr]
        rfl

theorem is_solved_spec_witness :
    is_solved (Wordle.new []) = none ∧
    is_solved ⟨[⟨['a'], [Correctness.Correct]⟩], [], [], [], []⟩ = some true :=
  ⟨(is_solved_spec (Wordle.new [])).1 rfl,
    ((is_solved_spec ⟨[⟨['a'], [Correctness.Correct]⟩], [], [], [], []⟩).2
      ⟨['a'], [Correctness.Correct]⟩ rfl).1⟩

theorem contains_eq_true_iff (l : List Char) (c : Char) : l.contains c = true ↔ c ∈ l := by
  simp [List.contains]

theorem contains_eq_false_iff (l : List Char) (c : Char) : l.contains c = false ↔ c ∉ l := by
  constructor
  · intro h hm
    have h2 := (contains_eq_true_iff l c).mpr hm
    rw [h] at h2
    exact Bool.noConfusion h2
  · intro h
    cases hb : l.contains c
    · rfl
    · exact absurd ((contains_eq_true_iff l c).mp hb) h

theorem check_guess_classify (guess target : Word) (res : List Correctness)
    (h : check_guess guess target = some res) :
    ∀ i c r, guess.get? i = some c → res.get? i = some r →
      (r = Correctness.Incorrect → target.contains c = false) ∧
      (r = Correctness.IncorrectPlacement → target.contains c = true) := by
  intro i c r hg hr
  obtain ⟨hlen, hidx⟩ := check_guess_go_eq_some target guess target res h
  have hi : i < guess.length := by
    by_contra hlt
    push_neg at hlt
    rw [List.get?_eq_none.mpr hlt] at hg
    exact Option.noConfusion hg
  have hle : guess.length ≤ target.length := by
    by_contra hcon
    push_neg at hcon
    rw [check_guess, (check_guess_go_eq_none target guess target).mpr hcon] at h
    exact Option.noConfusion h
  have hit : i < target.length := by omega
  have ht : target.get? i = some (target.get ⟨i, hit⟩) := List.get?_eq_get hit
  have hscore := hidx i c (target.get ⟨i, hit⟩) hg ht
  rw [hr] at hscore
  have hrs : r = scoreChar target c (target.get ⟨i, hit⟩) := Option.some.inj hscore
  constructor
  · intro hrI
    rw [hrs] at hrI
    unfold scoreChar at hrI
    by_cases h1 : c = target.get ⟨i, hit⟩
    · rw [if_pos h1] at hrI; exact Correctness.noConfusion hrI
    · rw [if_neg h1] at hrI
      by_cases h2 : target.contains c = true
      · rw [if_pos h2] at hrI; exact Correctness.noConfusion hrI
      · cases hb : target.contains c
        · rfl
        · exact absurd hb h2
  · intro hrM
    rw [hrs] at hrM
    unfold scoreChar at hrM
    by_cases h1 : c = target.get ⟨i, hit⟩
    · rw [if_pos h1] at hrM; exact Correctness.noConfusion hrM
    · rw [if_neg h1] at hrM
      by_cases h2 : target.contains c = true
      · exact h2
      · rw [if_neg h2] at hrM; exact Correctness.noConfusion hrM

/-- Accumulated letter evidence is consistent with the target: every
excluded (incorrect) letter is absent from the target and every required
(misplaced) letter occurs in it. -/
def lettersOk (target : Word) (st : Wordle) : Prop :=
  (∀ c ∈ st.incorrect_letters, target.contains c = false) ∧
  (∀ c ∈ st.misplaced_letters, target.contains c = true)

theorem applyLetter_lettersOk (target : Word) (st : Wordle) (c : Char) (i : Nat)
    (r : Correctness) (hok : lettersOk target st)
    (hI : r = Correctness.Incorrect → target.contains c = false)
    (hM : r = Correctness.IncorrectPlacement → target.contains c = true) :
    lettersOk target (applyLetter st c i r) := by
  cases r with
  | Correct => exact hok
  | IncorrectPlacement =>
    refine ⟨hok.1, ?_⟩
    intro x hx
    rcases List.mem_append.mp hx with hx | hx
    · exact hok.2 x hx
    · rw [List.mem_singleton.mp hx]
      exact hM rfl
  | Incorrect =>
    refine ⟨?_, hok.2⟩
    intro x hx
    rcases List.mem_append.mp hx with hx | hx
    · exact hok.1 x hx
    · rw [List.mem_singleton.mp hx]
      exact hI rfl

theorem recordLetters_lettersOk (target : Word) (result : List Correctness) :
    ∀ cs st i st2, recordLetters result st cs i = some st2 →
      lettersOk target st →
      (∀ j c, cs.get? j = some c → ∀ r, result.get? (i + j) = some r →
        (r = Correctness.Incorrect → target.contains c = false) ∧
        (r = Correctness.IncorrectPlacement → target.contains c = true)) →
      lettersOk target st2 := by
  intro cs
  induction cs with
  | nil =>
    intro st i st2 h hok _
    simp [recordLetters] at h
    subst h
    exact hok
  | cons c cs ih =>
    intro st i st2 h hok hcls
    simp only [recordLetters] at h
    cases hr : result.get? i with
    | none => rw [hr] at h; exact Option.noConfusion h
    | some r =>
      rw [hr] at h
      have hc0 := hcls 0 c (by simp) r (by simpa using hr)
      refine ih (applyLetter st c i r) (i + 1) st2 h
        (applyLetter_lettersOk target st c i r hok hc0.1 hc0.2) ?_
      intro j x hj rr hrr
      refine hcls (j + 1) x (by simpa using hj) rr ?_
      rw [show i + (j + 1) = i + 1 + j from by omega]
      exact hrr

theorem add_guess_lettersOk (target : Word) (st : Wordle) (g : Guess) (st2 : Wordle)
    (hg : check_guess g.guess target = some g.result)
    (h : add_guess st g = some st2) (hok : lettersOk target st) :
    lettersOk target st2 := by
  obtain ⟨stR, d, hrec, hret, hst2⟩ := add_guess_parts st g st2 h
  have hcls := check_guess_classify g.guess target g.result hg
  have hok1 : lettersOk target { st with guesses := st.guesses ++ [g] } := hok
  have hokR := recordLetters_lettersOk target g.result g.guess
    { st with guesses := st.guesses ++ [g] } 0 stR hrec hok1
    (fun j c hj r hr => hcls j c r hj (by simpa using hr))
  rw [hst2]
  exact hokR

theorem run_guesses_lettersOk (target : Word) :
    ∀ gs st st2, run_guesses st gs = some st2 → lettersOk target st →
      (∀ g ∈ gs, check_guess g.guess target = some g.result) →
      lettersOk target st2 := by
  intro gs
  induction gs with
  | nil =>
    intro st st2 h hok _
    simp [run_guesses] at h
    subst h
    exact hok
  | cons g gs ih =>
    intro st st2 h hok hh
    simp only [run_guesses] at h
    cases ha : add_guess st g with
    | none => rw [ha] at h; exact Option.noConfusion h
    | some stm =>
      rw [ha] at h
      exact ih stm st2 h
        (add_guess_lettersOk target st g stm (hh g (by simp)) ha hok)
        (fun g2 hg2 => hh g2 (List.mem_cons_of_mem _ hg2))

/-- C4: over any session run — a sequence of `add_guess` calls recording
guesses scored by `check_guess` against the session's target, as the
driver does — no letter ends up in both the excluded (incorrect) and the
required (misplaced) letter collections. -/
theorem add_guess_excluded_required_disjoint (d : List Word) (target : Word)
    (gs : List Guess) (st : Wordle)
    (hh : honest_all target gs = true)
    (hr : run_guesses (Wordle.new d) gs = some st) :
    listDisjoint st.incorrect_letters st.misplaced_letters = true ∧
      ∀ c, c ∈ st.incorrect_letters → c ∉ st.misplaced_letters := by
  have hh2 : ∀ g ∈ gs, check_guess g.guess target = some g.result := by
    intro g hg
    exact of_decide_eq_true (List.all_eq_true.mp hh g hg)
  have hok0 : lettersOk target (Wordle.new d) :=
    ⟨fun c hc => absurd hc (List.not_mem_nil c),
      fun c hc => absurd hc (List.not_mem_nil c)⟩
  have hok := run_guesses_lettersOk target gs (Wordle.new d) st hr hok0 hh2
  have hdisj : ∀ c, c ∈ st.incorrect_letters → c ∉ st.misplaced_letters := by
    intro c hci hcm
    have h1 := hok.1 c hci
    have h2 := hok.2 c hcm
    rw [h1] at h2
    exact Bool.noConfusion h2
  refine ⟨?_, hdisj⟩
  rw [listDisjoint, List.all_eq_true]
  intro c hc
  have hf : st.misplaced_letters.contains c = false :=
    (contains_eq_false_iff _ _).mpr (hdisj c hc)
  rw [hf]
  rfl

theorem add_guess_excluded_required_disjoint_witness :
    honest_all ['a', 'b']
        [⟨['b', 'c'], [Correctness.IncorrectPlacement, Correctness.Incorrect]⟩] = true ∧
    run_guesses (Wordle.new [])
        [⟨['b', 'c'], [Correctness.IncorrectPlacement, Correctness.Incorrect]⟩] =
      some ⟨[⟨['b', 'c'], [Correctness.IncorrectPlacement, Correctness.Incorrect]⟩],
        [], ['c'], [], ['b']⟩ ∧
    listDisjoint ['c'] ['b'] = true :=
  ⟨by decide, by decide,
    (add_guess_excluded_required_disjoint [] ['a', 'b']
      [⟨['b', 'c'], [Correctness.IncorrectPlacement, Correctness.Incorrect]⟩]
      ⟨[⟨['b', 'c'], [Correctness.IncorrectPlacement, Correctness.Incorrect]⟩],
        [], ['c'], [], ['b']⟩
      (by decide) (by decide)).1⟩

theorem has_double_letter_go_eq_false (seen : List Char) :
    ∀ l, has_double_letter_go seen l = false ↔ (l.Nodup ∧ ∀ c ∈ l, c ∉ seen) := by
  intro l
  induction l generalizing seen with
  | nil => simp [has_double_letter_go]
  | cons c cs ih =>
    simp only [has_double_letter_go]
    by_cases hc : seen.contains c = true
    · rw [if_pos hc]
      constructor
      · intro h
        exact Bool.noConfusion h
      · rintro ⟨hnd, hall⟩
        exact absurd ((contains_eq_true_iff seen c).mp hc) (hall c (by simp))
    · rw [if_neg hc, ih (c :: seen)]
      have hcs : c ∉ seen := fun hm => hc ((contains_eq_true_iff seen c).mpr hm)
      constructor
      · rintro ⟨hnd, hall⟩
        refine ⟨List.nodup_cons.mpr ⟨?_, hnd⟩, ?_⟩
        · intro hmem
          exact (hall c hmem) (List.mem_cons_self c seen)
        · intro x hx
          rcases List.mem_cons.mp hx with hx | hx
          · rw [hx]; exact hcs
          · intro hxs
            exact (hall x hx) (List.mem_cons_of_mem c hxs)
      · rintro ⟨hnd, hall⟩
        obtain ⟨hcn, hnd2⟩ := List.nodup_cons.mp hnd
        refine ⟨hnd2, ?_⟩
        intro x hx hxm
        rcases List.mem_cons.mp hxm with hxm | hxm
        · rw [hxm] at hx
          exact hcn hx
        · exact (hall x (List.mem_cons_of_mem c hx)) hxm

theorem has_double_letter_iff (w : Word) :
    has_double_letter w = true ↔ ¬ w.Nodup := by
  rw [has_double_letter]
  constructor
  · intro h hnd
    have h2 := (has_double_letter_go_eq_false [] w).mpr
      ⟨hnd, fun c _ => List.not_mem_nil c⟩
    rw [h] at h2
    exact Bool.noConfusion h2
  · intro h
    cases hb : has_double_letter_go [] w
    · exact absurd ((has_double_letter_go_eq_false [] w).mp hb).1 h
    · rfl

theorem dictChoose_isSome (dict : List Word) (h : dict ≠ []) (r : Nat) :
    ∃ w, dictChoose dict r = some w := by
  have hlen : 0 < dict.length := List.length_pos.mpr h
  have hlt : r % dict.length < dict.length := Nat.mod_lt r hlen
  rw [dictChoose]
  exact ⟨dict.get ⟨r % dict.length, hlt⟩, List.get?_eq_get hlt⟩

theorem choose_aux_succ_some (dict : List Word) (rand : Nat → Nat) (fuel nc : Nat)
    (choice : Word) (hch : dictChoose dict (rand nc) = some choice) :
    choose_aux dict rand (fuel + 1) nc =
      if dict.length < 10 ∨ has_double_letter choice = false ∨ 4 < nc + 1 then
        some (choice, nc + 1)
      else choose_aux dict rand fuel (nc + 1) := by
  simp only [choose_aux]
  rw [hch]

theorem choose_aux_succ_none (dict : List Word) (rand : Nat → Nat) (fuel nc : Nat)
    (hch : dictChoose dict (rand nc) = none) :
    choose_aux dict rand (fuel + 1) nc = none := by
  simp only [choose_aux]
  rw [hch]

theorem choose_aux_spec (dict : List Word) (rand : Nat → Nat) (h : dict ≠ []) :
    ∀ fuel nc, 5 ≤ nc + fuel → nc ≤ 4 →
      ∃ w n, choose_aux dict rand fuel nc = some (w, n) ∧ nc + 1 ≤ n ∧ n ≤ 5 ∧
        dictChoose dict (rand (n - 1)) = some w ∧
        (∀ k, nc ≤ k → k < n - 1 → 10 ≤ dict.length ∧
          ∀ v, dictChoose dict (rand k) = some v → has_double_letter v = true) ∧
        (dict.length < 10 ∨ has_double_letter w = false ∨ n = 5) := by
  intro fuel
  induction fuel with
  | zero =>
    intro nc h5 h4
    omega
  | succ fuel ih =>
    intro nc h5 h4
    obtain ⟨choice, hch⟩ := dictChoose_isSome dict h (rand nc)
    rw [choose_aux_succ_some dict rand fuel nc choice hch]
    by_cases hcond : dict.length < 10 ∨ has_double_letter choice = false ∨ 4 < nc + 1
    · rw [if_pos hcond]
      refine ⟨choice, nc + 1, rfl, le_refl _, by omega, by simpa using hch, ?_, ?_⟩
      · intro k hk1 hk2
        exact absurd hk2 (by omega)
      · rcases hcond with hc | hc | hc
        · exact Or.inl hc
        · exact Or.inr (Or.inl hc)
        · exact Or.inr (Or.inr (by omega))
    · rw [if_neg hcond]
      push_neg at hcond
      obtain ⟨h10, hdl, hle4⟩ := hcond
      have hdl2 : has_double_letter choice = true := by
        cases hb : has_double_letter choice
        · exact absurd hb hdl
        · rfl
      obtain ⟨w, n, haux, hn1, hn5, hw, hrej, hacc⟩ := ih (nc + 1) (by omega) (by omega)
      refine ⟨w, n, haux, by omega, hn5, hw, ?_, hacc⟩
      intro k hk1 hk2
      by_cases hkc : k = nc
      · subst hkc
        refine ⟨by omega, ?_⟩
        intro v hv
        rw [hch] at hv
        rw [← Option.some.inj hv]
        exact hdl2
      · exact hrej k (by omega) hk2

theorem choose_aux_mono (dict : List Word) (rand : Nat → Nat) :
    ∀ fuel fuel2 nc x, choose_aux dict rand fuel nc = some x → fuel ≤ fuel2 →
      choose_aux dict rand fuel2 nc = some x := by
  intro fuel
  induction fuel with
  | zero =>
    intro fuel2 nc x hcon _
    exact Option.noConfusion hcon
  | succ fuel ih =>
    intro fuel2 nc x h hle
    cases fuel2 with
    | zero => omega
    | succ fuel2 =>
      cases hch : dictChoose dict (rand nc) with
      | none =>
        rw [choose_aux_succ_none dict rand fuel nc hch] at h
        exact Option.noConfusion h
      | some choice =>
        rw [choose_aux_succ_some dict rand fuel nc choice hch] at h
        rw [choose_aux_succ_some dict rand fuel2 nc choice hch]
        by_cases hcond : dict.length < 10 ∨ has_double_letter choice = false ∨ 4 < nc + 1
        · rw [if_pos hcond] at h ⊢
          exact h
        · rw [if_neg hcond] at h ⊢
          exact ih fuel2 (nc + 1) x h (by omega)

/-- C6: on a non-empty dictionary, for every random stream the selector
loop returns (the same value for every fuel bound of at least 5 draws):
it returns the draw made at step `n - 1` after at most `n ≤ 5` draws,
every earlier draw was rejected because the dictionary had at least 10
entries and the drawn word had a double (repeated) letter, and the final
draw is accepted either because the dictionary is small, or it has no
double letter, or it is the fifth draw (after 4 rejections, accepted
regardless); `has_double_letter` holds exactly on words with a repeated
letter (non-`Nodup` character lists). -/
theorem choose_next_guess_spec (dict : List Word) (rand : Nat → Nat) (h : dict ≠ []) :
    ∃ w n, (∀ fuel, 5 ≤ fuel → choose_next_guess dict rand fuel = some (w, n)) ∧
      1 ≤ n ∧ n ≤ 5 ∧
      dictChoose dict (rand (n - 1)) = some w ∧
      (∀ k, k < n - 1 → 10 ≤ dict.length ∧
        ∀ v, dictChoose dict (rand k) = some v → has_double_letter v = true) ∧
      (dict.length < 10 ∨ has_double_letter w = false ∨ n = 5) ∧
      (∀ v : Word, has_double_letter v = true ↔ ¬ v.Nodup) := by
  obtain ⟨w, n, haux, hn1, hn5, hw, hrej, hacc⟩ :=
    choose_aux_spec dict rand h 5 0 (by omega) (by omega)
  refine ⟨w, n, ?_, hn1, hn5, hw, ?_, hacc, has_double_letter_iff⟩
  · intro fuel hfuel
    exact choose_aux_mono dict rand 5 fuel 0 (w, n) haux hfuel
  · intro k hk
    exact hrej k (Nat.zero_le k) hk

theorem choose_next_guess_spec_witness :
    ([['a', 'a']] : List Word) ≠ [] ∧
    (choose_next_guess [['a', 'a']] (fun k => k) 5).isSome = true := by
  refine ⟨by decide, ?_⟩
  obtain ⟨w, n, hf, hrest⟩ := choose_next_guess_spec [['a', 'a']] (fun k => k) (by decide)
  rw [hf 5 (by omega)]
  rfl

end WordleSolver
